import Mathlib

/-!
Verification of the field addressing and mutation engine of the `entry`
package: a path-expression language (dotted and bracketed key segments)
plus get/set/delete/merge algorithms over nested string-keyed mappings.
The Go implementation of `ResourceField` and its parser is not among the
provided sources (only its test file `resource_field_test.go` is), so the
operations below are modelled from the specification, with the concrete
behaviours that the test file pins (for example the empty-string result of
Get/Delete on an uninitialized resource) taken from those tests.
-/

namespace OTelEntry

/-- Dynamic values stored in a record sub-tree, the closed sum type the spec
prescribes for `interface-any` values: null, boolean, number, string,
sequence, or mapping of string to value (modelled as an association list). -/
inductive Value where
  | null
  | bool (b : Bool)
  | num (n : Int)
  | str (s : String)
  | seq (vs : List Value)
  | map (entries : List (String × Value))

/-- A mapping of string to arbitrary value, the Go `map[string]interface` shape. -/
abbrev VMap := List (String × Value)

/-- Lookup of a key in a mapping, the Go `m[key]` read. -/
def alookup : VMap → String → Option Value
  | [], _ => none
  | (k, v) :: rest, key => if k = key then some v else alookup rest key

/-- Insert-or-overwrite of a key in a mapping, the Go `m[key] = v` write. -/
def ainsert : VMap → String → Value → VMap
  | [], key, v => [(key, v)]
  | (k, w) :: rest, key, v =>
    if k = key then (k, v) :: rest else (k, w) :: ainsert rest key v

/-- Removal of a key from a mapping, the Go `delete(m, key)` built-in. -/
def aerase : VMap → String → VMap
  | [], _ => []
  | (k, w) :: rest, key => if k = key then rest else (k, w) :: aerase rest key

/-- Whether a value is a mapping, the Go `value.(map[string]interface)` tag test. -/
def Value.isMap : Value → Bool
  | .map _ => true
  | _ => false

/-- Modelled from the spec: the shallow one-level merge of an incoming mapping
into an existing mapping (spec 4.3 step 2): each incoming key is inserted into
or overwrites the existing mapping, nested mapping values replaced wholesale;
the Go implementation of this loop is absent from the provided sources. -/
def mergeMaps : VMap → VMap → VMap
  | old, [] => old
  | old, (k, v) :: rest => mergeMaps (ainsert old k v) rest

/-- A parsed field: an ordered sequence of string key segments addressing a
location inside the resource sub-tree (empty sequence means the whole sub-tree). -/
structure ResourceField where
  keys : List String

/-- Construction of a resource field from its key segments, the Go
variadic `NewResourceField` helper. -/
def NewResourceField (keys : List String) : ResourceField := ⟨keys⟩

/-- A telemetry record: timestamp, body, attributes and resource sub-trees.
The resource sub-tree is an optional mapping, `none` standing for the Go nil map. -/
structure Entry where
  timestamp : Nat
  body : Value
  attributes : Option VMap
  resource : Option VMap

/-- A fresh record with every sub-tree uninitialized, the Go `New()` constructor. -/
def New : Entry := ⟨0, .null, none, none⟩

/-- Modelled from the spec: the Get traversal (spec 4.3), whose Go
implementation is absent from the provided sources. At each segment the
current value must be a mapping holding the key, else the call fails with a
null payload. -/
def getKeys : Value → List String → Value × Bool
  | cur, [] => (cur, true)
  | .map m, key :: rest =>
    (match alookup m key with
     | some v => getKeys v rest
     | none => (.null, false))
  | _, _ :: _ => (.null, false)

/-- Modelled from the spec: `Entry.Get` for a resource field, absent from the
provided sources. An uninitialized (nil) resource yields the typed zero value
(the empty string) with found false, as pinned by TestResourceFieldGet. -/
def Entry.get (e : Entry) (f : ResourceField) : Value × Bool :=
  match e.resource with
  | none => (.str "", false)
  | some m => getKeys (.map m) f.keys

/-- Modelled from the spec: the Delete traversal below the root (spec 4.3),
absent from the provided sources. It walks intermediate mappings and removes
the entry at the final key, returning the removed value and the updated map;
`none` reports the not-found outcomes (absent key or blocked non-mapping). -/
def deleteKeys : VMap → String → List String → Option (Value × VMap)
  | m, key, [] =>
    (match alookup m key with
     | some v => some (v, aerase m key)
     | none => none)
  | m, key, next :: rest =>
    (match alookup m key with
     | some (.map inner) =>
       (match deleteKeys inner next rest with
        | some (v, inner2) => some (v, ainsert m key (.map inner2))
        | none => none)
     | _ => none)

/-- Modelled from the spec: `Entry.Delete` for a resource field, absent from
the provided sources. A nil resource yields the typed zero value with found
false (pinned by TestResourceFieldDelete); an empty field returns the whole
sub-tree and resets the resource to nil; otherwise the traversal runs and a
failed traversal leaves the record unchanged. -/
def Entry.delete (e : Entry) (f : ResourceField) : Value × Bool × Entry :=
  match e.resource with
  | none => (.str "", false, e)
  | some m =>
    match f.keys with
    | [] => (.map m, true, { e with resource := none })
    | key :: rest =>
      match deleteKeys m key rest with
      | some (v, m2) => (v, true, { e with resource := some m2 })
      | none => (.null, false, e)

/-- Error reported when a non-mapping intermediate value blocks a Set path. -/
def errBlockedPath : String := "cannot set value: non-mapping value blocks the path"

/-- Error reported when a populated root sub-tree would be replaced by a
non-mapping value. -/
def errRootNonMap : String := "cannot replace a populated resource with a non-mapping value"

/-- Modelled from the spec: the Set write traversal below the root (spec 4.3),
absent from the provided sources. Missing intermediate segments are
auto-created as empty mappings; an existing non-mapping intermediate is a hard
error; at the final key the incoming value merges with an existing mapping
when it is itself a mapping, and replaces the stored value otherwise. -/
def setKeys : VMap → String → List String → Value → Except String VMap
  | m, key, [], v =>
    (match alookup m key, v with
     | some (.map old), .map inc => .ok (ainsert m key (.map (mergeMaps old inc)))
     | _, _ => .ok (ainsert m key v))
  | m, key, next :: rest, v =>
    (match alookup m key with
     | some (.map inner) =>
       (match setKeys inner next rest v with
        | .ok inner2 => .ok (ainsert m key (.map inner2))
        | .error msg => .error msg)
     | some _ => .error errBlockedPath
     | none =>
       (match setKeys [] next rest v with
        | .ok inner2 => .ok (ainsert m key (.map inner2))
        | .error msg => .error msg))

/-- Modelled from the spec: `Entry.Set` for a resource field, absent from the
provided sources (spec 4.3 write policy). A nil resource is first initialized
to an empty mapping. For the empty path, a mapping value merges into the root
sub-tree; a non-mapping value is rejected when the root sub-tree is populated
and is allowed (keeping the mapping-typed sub-tree) when it is empty. For a
non-empty path the traversal `setKeys` runs. -/
def Entry.set (e : Entry) (f : ResourceField) (v : Value) : Except String Entry :=
  let m := e.resource.getD []
  match f.keys with
  | [] =>
    (match v with
     | .map inc => .ok { e with resource := some (mergeMaps m inc) }
     | _ =>
       if m.isEmpty then .ok { e with resource := some m }
       else .error errRootNonMap)
  | key :: rest =>
    (match setKeys m key rest v with
     | .ok m2 => .ok { e with resource := some m2 }
     | .error msg => .error msg)

/-- Modelled from the spec: the Merge traversal (spec 4.3 and 7), absent from
the provided sources. It never fails: an absent or non-mapping value along the
path is replaced wholesale by a fresh mapping, and the incoming mapping is
shallow-merged at the final location. -/
def mergeKeys : VMap → List String → VMap → VMap
  | m, [], inc => mergeMaps m inc
  | m, key :: rest, inc =>
    (match alookup m key with
     | some (.map inner) => ainsert m key (.map (mergeKeys inner rest inc))
     | _ => ainsert m key (.map (mergeKeys [] rest inc)))

/-- Modelled from the spec: `ResourceField.Merge`, absent from the provided
sources; it applies the merge policy to the record's resource sub-tree and
surfaces no error. -/
def ResourceField.merge (f : ResourceField) (e : Entry) (inc : VMap) : Entry :=
  { e with resource := some (mergeKeys (e.resource.getD []) f.keys inc) }

/-- Modelled from the spec: `ResourceField.Parent`, absent from the provided
sources; it drops the last key segment and is the identity on a root field. -/
def ResourceField.parent (f : ResourceField) : ResourceField := ⟨f.keys.dropLast⟩

/-- Modelled from the spec: `ResourceField.Child`, absent from the provided
sources; it appends a key segment, leaving the receiver untouched. -/
def ResourceField.child (f : ResourceField) (key : String) : ResourceField :=
  ⟨f.keys ++ [key]⟩

/-- Whether a full path exists in a value: every non-final segment reaches a
mapping holding the key, and the final key is present. This is the success
condition of the Get and Delete traversals. -/
def pathExists : Value → List String → Bool
  | _, [] => true
  | .map m, key :: rest =>
    (match alookup m key with
     | some v => pathExists v rest
     | none => false)
  | _, _ :: _ => false

/-- Whether no existing non-mapping value blocks a Set path: every intermediate
segment either reaches a mapping or is absent (so it can be auto-created). -/
def clearPath : VMap → String → List String → Bool
  | _, _, [] => true
  | m, key, next :: rest =>
    (match alookup m key with
     | some (.map inner) => clearPath inner next rest
     | some _ => false
     | none => true)

/-- Whether a Set outcome is a success. -/
def setOk : Except String VMap → Bool
  | .ok _ => true
  | .error _ => false

/-- The single-quote character delimiting bracketed key segments. -/
def squote : Char := Char.ofNat 39

/-- The single-quote character as a one-character string. -/
def sq : String := String.mk [squote]

/-- Error reported when the unmarshalled configuration value is not a string. -/
def errNotString : String := "the field is not a string"

/-- Error reported when the path expression does not begin with the root keyword. -/
def errMustStart : String := "must start with " ++ sq ++ "resource" ++ sq

/-- Error reported when a bracket segment is opened but never closed. -/
def errUnclosed : String := "found unclosed left bracket"

/-- Error reported for any other unrecognized character sequence. -/
def errBadChar : String := "unrecognized character in field expression"

/-- Parser state: reading a dotted identifier run, between segments after a
closed bracket, just after an opening bracket, inside a quoted key, or after
the closing quote awaiting the right bracket. Accumulators hold the characters
of the key being read, most recent first. -/
inductive PState where
  | inDot (acc : List Char)
  | betweenSegs
  | openBr
  | inQuote (acc : List Char)
  | afterQuote (acc : List Char)

/-- Modelled from the spec: the path-expression scanner (spec 4.1 grammar),
whose Go implementation is absent from the provided sources. It splits the
input into the root keyword followed by dotted and bracketed key segments
(collected most recent first in `toks`), reporting an unclosed left bracket
when the input ends inside a bracket construct. -/
def runParse : PState → List String → List Char → Except String (List String)
  | .inDot acc, toks, [] => .ok ((String.mk acc.reverse :: toks).reverse)
  | .betweenSegs, toks, [] => .ok toks.reverse
  | .openBr, _, [] => .error errUnclosed
  | .inQuote _, _, [] => .error errUnclosed
  | .afterQuote _, _, [] => .error errUnclosed
  | .inDot acc, toks, c :: rest =>
    if c = '.' then runParse (.inDot []) (String.mk acc.reverse :: toks) rest
    else if c = '[' then runParse .openBr (String.mk acc.reverse :: toks) rest
    else if c = ']' then .error errBadChar
    else runParse (.inDot (c :: acc)) toks rest
  | .betweenSegs, toks, c :: rest =>
    if c = '.' then runParse (.inDot []) toks rest
    else if c = '[' then runParse .openBr toks rest
    else .error errBadChar
  | .openBr, toks, c :: rest =>
    if c = squote then runParse (.inQuote []) toks rest
    else .error errBadChar
  | .inQuote acc, toks, c :: rest =>
    if c = squote then runParse (.afterQuote acc) toks rest
    else runParse (.inQuote (c :: acc)) toks rest
  | .afterQuote acc, toks, c :: rest =>
    if c = ']' then runParse .betweenSegs (String.mk acc.reverse :: toks) rest
    else .error errBadChar

/-- Modelled from the spec: splitting a textual path expression into its token
sequence (root keyword first), absent from the provided sources. -/
def fromJSONDot (s : String) : Except String (List String) :=
  runParse (.inDot []) [] s.data

/-- Modelled from the spec: turning a path-expression string into a resource
field, absent from the provided sources: the string is tokenized and the
leading token must be the root keyword `resource`. -/
def fieldFromString (s : String) : Except String ResourceField :=
  match fromJSONDot s with
  | .error msg => .error msg
  | .ok toks =>
    match toks with
    | root :: keys => if root = "resource" then .ok ⟨keys⟩ else .error errMustStart
    | [] => .error errMustStart

/-- The value a configuration deserializer hands to the field unmarshaller:
either a string scalar or some non-string value. -/
inductive ConfigNode where
  | str (s : String)
  | nonstr

/-- Modelled from the spec: `UnmarshalYAML` for a resource field, absent from
the provided sources; a non-string node is rejected, a string is parsed. -/
def ResourceField.unmarshalYAML : ConfigNode → Except String ResourceField
  | .nonstr => .error errNotString
  | .str s => fieldFromString s

/-- Modelled from the spec: `UnmarshalJSON` for a resource field, absent from
the provided sources; a non-string value is rejected, a string is parsed with
the identical grammar and error classification as the YAML path. -/
def ResourceField.unmarshalJSON : ConfigNode → Except String ResourceField
  | .nonstr => .error errNotString
  | .str s => fieldFromString s

/-- The nested mapping used throughout the test file. -/
def nestedMap : VMap := [("nested_key", .str "nested_value")]

/-- The two-entry resource mapping used throughout the test file. -/
def testMap : VMap := [("simple_key", .str "simple_value"), ("map_key", .map nestedMap)]

theorem alookup_ainsert (m : VMap) (k : String) (v : Value) (q : String) :
    alookup (ainsert m k v) q = if q = k then some v else alookup m q := by
  induction m with
  | nil =>
    by_cases h : q = k
    · subst h; simp [ainsert, alookup]
    · have h2 : ¬ k = q := fun hh => h hh.symm
      simp [ainsert, alookup, h, h2]
  | cons kv rest ih =>
    obtain ⟨a, b⟩ := kv
    by_cases hak : a = k
    · subst hak
      by_cases hq : q = a
      · subst hq; simp [ainsert, alookup]
      · have h2 : ¬ a = q := fun hh => hq hh.symm
        simp [ainsert, alookup, hq, h2]
    · by_cases haq : a = q
      · subst haq
        have hqk : ¬ a = k := hak
        simp [ainsert, alookup, hak, hqk]
      · simp [ainsert, alookup, hak, haq, ih]

theorem alookup_ainsert_self (m : VMap) (k : String) (v : Value) :
    alookup (ainsert m k v) k = some v := by
  simp [alookup_ainsert]

theorem alookup_ainsert_ne (m : VMap) (k : String) (v : Value) (q : String) (h : q ≠ k) :
    alookup (ainsert m k v) q = alookup m q := by
  simp [alookup_ainsert, h]

theorem alookup_aerase_ne (m : VMap) (k q : String) (h : q ≠ k) :
    alookup (aerase m k) q = alookup m q := by
  induction m with
  | nil => simp [aerase]
  | cons kv rest ih =>
    obtain ⟨a, b⟩ := kv
    by_cases hak : a = k
    · subst hak
      have h2 : ¬ a = q := fun hh => h (hh.symm.trans rfl)
      simp [aerase, alookup, h2]
    · by_cases haq : a = q
      · subst haq
        simp [aerase, alookup, hak]
      · simp [aerase, alookup, hak, haq, ih]

theorem alookup_eq_none_of_not_mem (m : VMap) (k : String)
    (h : k ∉ m.map Prod.fst) : alookup m k = none := by
  induction m with
  | nil => simp [alookup]
  | cons kv rest ih =>
    obtain ⟨a, b⟩ := kv
    simp only [List.map_cons, List.mem_cons] at h
    push_neg at h
    have h2 : ¬ a = k := fun hh => h.1 hh.symm
    simp [alookup, h2, ih h.2]

theorem alookup_aerase_self (m : VMap) (k : String)
    (hnd : (m.map Prod.fst).Nodup) : alookup (aerase m k) k = none := by
  induction m with
  | nil => simp [aerase, alookup]
  | cons kv rest ih =>
    obtain ⟨a, b⟩ := kv
    simp only [List.map_cons, List.nodup_cons] at hnd
    by_cases hak : a = k
    · subst hak
      simpa [aerase] using alookup_eq_none_of_not_mem rest a hnd.1
    · simp [aerase, alookup, hak, ih hnd.2]

theorem mergeMaps_lookup (inc : VMap) : ∀ (old : VMap) (q : String),
    (inc.map Prod.fst).Nodup →
    alookup (mergeMaps old inc) q =
      (match alookup inc q with
       | some v => some v
       | none => alookup old q) := by
  induction inc with
  | nil => intro old q _; simp [mergeMaps, alookup]
  | cons kv rest ih =>
    intro old q hnd
    obtain ⟨k, v⟩ := kv
    simp only [List.map_cons, List.nodup_cons] at hnd
    rw [show mergeMaps old ((k, v) :: rest) = mergeMaps (ainsert old k v) rest from rfl]
    rw [ih (ainsert old k v) q hnd.2]
    by_cases hq : k = q
    · subst hq
      rw [alookup_eq_none_of_not_mem rest k hnd.1]
      simp [alookup, alookup_ainsert_self]
    · rw [alookup_ainsert_ne old k v q (fun h => hq h.symm)]
      simp [alookup, hq]

theorem getKeys_found (ks : List String) : ∀ v : Value, (getKeys v ks).2 = pathExists v ks := by
  induction ks with
  | nil => intro v; cases v <;> rfl
  | cons key rest ih =>
    intro v
    cases v with
    | map m =>
      rcases h : alookup m key with _ | w
      · simp [getKeys, pathExists, h]
      · simp [getKeys, pathExists, h, ih w]
    | null => rfl
    | bool b => rfl
    | num n => rfl
    | str s => rfl
    | seq vs => rfl

theorem deleteKeys_isSome (rest : List String) : ∀ (m : VMap) (key : String),
    (deleteKeys m key rest).isSome = pathExists (.map m) (key :: rest) := by
  induction rest with
  | nil =>
    intro m key
    rcases h : alookup m key with _ | w <;> simp [deleteKeys, pathExists, h]
  | cons next rest2 ih =>
    intro m key
    rcases h : alookup m key with _ | w
    · simp [deleteKeys, pathExists, h]
    · cases w with
      | map inner =>
        have hd : deleteKeys m key (next :: rest2) =
            (match deleteKeys inner next rest2 with
             | some (v, inner2) => some (v, ainsert m key (.map inner2))
             | none => none) := by
          simp [deleteKeys, h]
        have hp : pathExists (.map m) (key :: next :: rest2) =
            pathExists (.map inner) (next :: rest2) := by
          simp [pathExists, h]
        rw [hd, hp, ← ih inner next]
        rcases h2 : deleteKeys inner next rest2 with _ | vi
        · simp
        · obtain ⟨v, i2⟩ := vi; simp
      | null => simp [deleteKeys, pathExists, h]
      | bool b => simp [deleteKeys, pathExists, h]
      | num n => simp [deleteKeys, pathExists, h]
      | str s => simp [deleteKeys, pathExists, h]
      | seq vs => simp [deleteKeys, pathExists, h]

theorem setKeys_fresh (rest : List String) : ∀ (key : String) (v : Value),
    ∃ m2, setKeys [] key rest v = .ok m2 ∧ getKeys (.map m2) (key :: rest) = (v, true) := by
  induction rest with
  | nil =>
    intro key v
    refine ⟨[(key, v)], ?_, ?_⟩
    · simp [setKeys, alookup, ainsert]
    · simp [getKeys, alookup]
  | cons next rest2 ih =>
    intro key v
    obtain ⟨m2, hset, hget⟩ := ih next v
    refine ⟨[(key, .map m2)], ?_, ?_⟩
    · simp [setKeys, alookup, hset, ainsert]
    · simpa [getKeys, alookup] using hget

theorem setKeys_ok (rest : List String) : ∀ (m : VMap) (key : String) (v : Value),
    setOk (setKeys m key rest v) = clearPath m key rest := by
  induction rest with
  | nil =>
    intro m key v
    rcases h : alookup m key with _ | w
    · simp [setKeys, clearPath, h, setOk]
    · cases w <;> cases v <;> simp [setKeys, clearPath, h, setOk]
  | cons next rest2 ih =>
    intro m key v
    rcases h : alookup m key with _ | w
    · obtain ⟨m2, hset, -⟩ := setKeys_fresh rest2 next v
      simp [setKeys, clearPath, h, hset, setOk]
    · cases w with
      | map inner =>
        have hs : setKeys m key (next :: rest2) v =
            (match setKeys inner next rest2 v with
             | .ok inner2 => .ok (ainsert m key (.map inner2))
             | .error msg => .error msg) := by
          simp [setKeys, h]
        have hc : clearPath m key (next :: rest2) = clearPath inner next rest2 := by
          simp [clearPath, h]
        rw [hs, hc, ← ih inner next v]
        rcases h2 : setKeys inner next rest2 v with msg | m2 <;> simp [h2, setOk]
      | null => simp [setKeys, clearPath, h, setOk]
      | bool b => simp [setKeys, clearPath, h, setOk]
      | num n => simp [setKeys, clearPath, h, setOk]
      | str s => simp [setKeys, clearPath, h, setOk]
      | seq vs => simp [setKeys, clearPath, h, setOk]

theorem setKeys_merge (rest : List String) : ∀ (key : String) (m old inc : VMap),
    getKeys (.map m) (key :: rest) = (.map old, true) →
    ∃ m2, setKeys m key rest (.map inc) = .ok m2 ∧
      getKeys (.map m2) (key :: rest) = (.map (mergeMaps old inc), true) := by
  induction rest with
  | nil =>
    intro key m old inc hget
    rcases h : alookup m key with _ | w
    · simp [getKeys, h] at hget
    · simp only [getKeys, h] at hget
      have hw : w = .map old := by
        have := congrArg Prod.fst hget
        simpa [getKeys] using this
      subst hw
      refine ⟨ainsert m key (.map (mergeMaps old inc)), ?_, ?_⟩
      · simp [setKeys, h]
      · simp [getKeys, alookup_ainsert_self]
  | cons next rest2 ih =>
    intro key m old inc hget
    rcases h : alookup m key with _ | w
    · simp [getKeys, h] at hget
    · cases w with
      | map inner =>
        simp only [getKeys, h] at hget
        obtain ⟨i2, hset, hget2⟩ := ih next inner old inc hget
        refine ⟨ainsert m key (.map i2), ?_, ?_⟩
        · simp [setKeys, h, hset]
        · simpa [getKeys, alookup_ainsert_self] using hget2
      | null => simp [getKeys, h] at hget
      | bool b => simp [getKeys, h] at hget
      | num n => simp [getKeys, h] at hget
      | str s => simp [getKeys, h] at hget
      | seq vs => simp [getKeys, h] at hget

theorem mergeKeys_fresh (rest : List String) : ∀ inc : VMap,
    getKeys (.map (mergeKeys [] rest inc)) rest = (.map (mergeMaps [] inc), true) := by
  induction rest with
  | nil => intro inc; simp [mergeKeys, getKeys]
  | cons key rest2 ih =>
    intro inc
    simp [mergeKeys, alookup, getKeys, ih]

theorem mergeKeys_install (keys : List String) : ∀ (m inc : VMap),
    pathExists (.map m) keys = false →
    getKeys (.map (mergeKeys m keys inc)) keys = (.map (mergeMaps [] inc), true) := by
  induction keys with
  | nil => intro m inc h; simp [pathExists] at h
  | cons key rest ih =>
    intro m inc h
    rcases hl : alookup m key with _ | w
    · simp only [mergeKeys, hl]
      simp [getKeys, alookup_ainsert_self, mergeKeys_fresh rest inc]
    · cases w with
      | map inner =>
        simp only [pathExists, hl] at h
        simp only [mergeKeys, hl]
        simp [getKeys, alookup_ainsert_self, ih inner inc h]
      | null =>
        cases rest with
        | nil => simp [pathExists, hl] at h
        | cons r rs =>
          have hm : mergeKeys m (key :: r :: rs) inc =
              ainsert m key (.map (mergeKeys [] (r :: rs) inc)) := by
            simp [mergeKeys, hl]
          rw [hm]
          simpa [getKeys, alookup_ainsert_self] using mergeKeys_fresh (r :: rs) inc
      | bool b =>
        cases rest with
        | nil => simp [pathExists, hl] at h
        | cons r rs =>
          have hm : mergeKeys m (key :: r :: rs) inc =
              ainsert m key (.map (mergeKeys [] (r :: rs) inc)) := by
            simp [mergeKeys, hl]
          rw [hm]
          simpa [getKeys, alookup_ainsert_self] using mergeKeys_fresh (r :: rs) inc
      | num n =>
        cases rest with
        | nil => simp [pathExists, hl] at h
        | cons r rs =>
          have hm : mergeKeys m (key :: r :: rs) inc =
              ainsert m key (.map (mergeKeys [] (r :: rs) inc)) := by
            simp [mergeKeys, hl]
          rw [hm]
          simpa [getKeys, alookup_ainsert_self] using mergeKeys_fresh (r :: rs) inc
      | str s =>
        cases rest with
        | nil => simp [pathExists, hl] at h
        | cons r rs =>
          have hm : mergeKeys m (key :: r :: rs) inc =
              ainsert m key (.map (mergeKeys [] (r :: rs) inc)) := by
            simp [mergeKeys, hl]
          rw [hm]
          simpa [getKeys, alookup_ainsert_self] using mergeKeys_fresh (r :: rs) inc
      | seq vs =>
        cases rest with
        | nil => simp [pathExists, hl] at h
        | cons r rs =>
          have hm : mergeKeys m (key :: r :: rs) inc =
              ainsert m key (.map (mergeKeys [] (r :: rs) inc)) := by
            simp [mergeKeys, hl]
          rw [hm]
          simpa [getKeys, alookup_ainsert_self] using mergeKeys_fresh (r :: rs) inc

theorem mergeKeys_frame (m : VMap) (key : String) (rest : List String) (inc : VMap)
    (q : String) (h : q ≠ key) :
    alookup (mergeKeys m (key :: rest) inc) q = alookup m q := by
  rcases hl : alookup m key with _ | w
  · simp [mergeKeys, hl, alookup_ainsert_ne _ _ _ _ h]
  · cases w <;> simp [mergeKeys, hl, alookup_ainsert_ne _ _ _ _ h]

theorem deleteKeys_frame (m : VMap) (key : String) (rest : List String) (v : Value) (m2 : VMap)
    (h : deleteKeys m key rest = some (v, m2)) (q : String) (hq : q ≠ key) :
    alookup m2 q = alookup m q := by
  cases rest with
  | nil =>
    rcases hl : alookup m key with _ | w
    · simp [deleteKeys, hl] at h
    · simp only [deleteKeys, hl, Option.some.injEq, Prod.mk.injEq] at h
      rw [← h.2, alookup_aerase_ne _ _ _ hq]
  | cons next rest2 =>
    rcases hl : alookup m key with _ | w
    · simp [deleteKeys, hl] at h
    · cases w with
      | map inner =>
        simp only [deleteKeys, hl] at h
        rcases h2 : deleteKeys inner next rest2 with _ | vi
        · rw [h2] at h; simp at h
        · obtain ⟨v2, i2⟩ := vi
          rw [h2] at h
          simp only [Option.some.injEq, Prod.mk.injEq] at h
          rw [← h.2, alookup_ainsert_ne _ _ _ _ hq]
      | null => simp [deleteKeys, hl] at h
      | bool b => simp [deleteKeys, hl] at h
      | num n => simp [deleteKeys, hl] at h
      | str s => simp [deleteKeys, hl] at h
      | seq vs => simp [deleteKeys, hl] at h

theorem deleteKeys_parent (rest : List String) :
    ∀ (key : String) (m : VMap) (v : Value) (m2 p : VMap) (last : String),
    deleteKeys m key rest = some (v, m2) →
    getKeys (.map m) ((key :: rest).dropLast) = (.map p, true) →
    (key :: rest).getLast? = some last →
    getKeys (.map m2) ((key :: rest).dropLast) = (.map (aerase p last), true) := by
  induction rest with
  | nil =>
    intro key m v m2 p last hdel hpar hlast
    have hdl : ([key] : List String).dropLast = [] := rfl
    rw [hdl] at hpar ⊢
    have hp : m = p := by
      have := congrArg Prod.fst hpar
      simpa [getKeys] using this
    have hlk : last = key := by
      have : some key = some last := by simpa using hlast
      exact (Option.some.injEq _ _ ▸ this).symm
    rcases hl : alookup m key with _ | w
    · simp [deleteKeys, hl] at hdel
    · simp only [deleteKeys, hl, Option.some.injEq, Prod.mk.injEq] at hdel
      rw [← hdel.2, ← hp, hlk]
      simp [getKeys]
  | cons next rest2 ih =>
    intro key m v m2 p last hdel hpar hlast
    rcases hl : alookup m key with _ | w
    · simp [deleteKeys, hl] at hdel
    · cases w with
      | map inner =>
        simp only [deleteKeys, hl] at hdel
        rcases h2 : deleteKeys inner next rest2 with _ | vi
        · rw [h2] at hdel; simp at hdel
        · obtain ⟨v2, i2⟩ := vi
          rw [h2] at hdel
          simp only [Option.some.injEq, Prod.mk.injEq] at hdel
          have hdl : (key :: next :: rest2).dropLast = key :: (next :: rest2).dropLast := rfl
          rw [hdl] at hpar ⊢
          have hpar2 : getKeys (.map inner) ((next :: rest2).dropLast) = (.map p, true) := by
            simpa [getKeys, hl] using hpar
          have hlast2 : (next :: rest2).getLast? = some last := by
            have hgl : (key :: next :: rest2).getLast? = (next :: rest2).getLast? := rfl
            rw [← hgl]; exact hlast
          have hrec := ih next inner v2 i2 p last h2 hpar2 hlast2
          rw [← hdel.2]
          simp [getKeys, alookup_ainsert_self, hrec]
      | null => simp [deleteKeys, hl] at hdel
      | bool b => simp [deleteKeys, hl] at hdel
      | num n => simp [deleteKeys, hl] at hdel
      | str s => simp [deleteKeys, hl] at hdel
      | seq vs => simp [deleteKeys, hl] at hdel

theorem runParse_inQuote (cs : List Char) :
    ∀ (acc : List Char) (toks : List String) (rest : List Char),
    squote ∉ cs →
    runParse (.inQuote acc) toks (cs ++ squote :: rest) =
      runParse (.afterQuote (cs.reverse ++ acc)) toks rest := by
  induction cs with
  | nil => intro acc toks rest _; simp [runParse]
  | cons c cs2 ih =>
    intro acc toks rest h
    simp only [List.mem_cons] at h
    push_neg at h
    have hc : ¬ c = squote := fun hh => h.1 hh.symm
    simp only [List.cons_append, runParse, hc, if_false, ite_false]
    show runParse (.inQuote (c :: acc)) toks (cs2 ++ squote :: rest) =
      runParse (.afterQuote ((c :: cs2).reverse ++ acc)) toks rest
    rw [ih (c :: acc) toks rest h.2]
    simp

theorem parse_bracket_general (raw : List Char) (h : squote ∉ raw) :
    fromJSONDot ("resource[" ++ sq ++ String.mk raw ++ sq ++ "]") =
      .ok ["resource", String.mk raw] := by
  have hdata : ("resource[" ++ sq ++ String.mk raw ++ sq ++ "]").data =
      "resource[".data ++ (squote :: (raw ++ squote :: [']'])) := by
    simp [String.data_append, sq]
  rw [fromJSONDot, hdata]
  have h1 : runParse (.inDot []) [] ("resource[".data ++ (squote :: (raw ++ squote :: [']']))) =
      runParse .openBr ["resource"] (squote :: (raw ++ squote :: [']'])) := rfl
  have h2 : runParse .openBr ["resource"] (squote :: (raw ++ squote :: [']'])) =
      runParse (.inQuote []) ["resource"] (raw ++ squote :: [']']) := by
    simp [runParse]
  rw [h1, h2, runParse_inQuote raw [] ["resource"] [']'] h]
  simp [runParse]

/-- Claim C1: for every Set on a field whose target location currently holds a
mapping and whose incoming value is also a mapping, Set performs a shallow
one-level merge: every incoming key is inserted into or overwrites the
corresponding key of the existing mapping (values, nested mappings included,
are taken wholesale from the incoming mapping), keys present only in the
existing mapping are preserved, and Set returns no error. -/
theorem set_merges_into_existing_mapping (e : Entry) (f : ResourceField)
    (old inc : VMap) (hget : e.get f = (.map old, true))
    (hnd : (inc.map Prod.fst).Nodup) :
    ∃ e2, e.set f (.map inc) = .ok e2 ∧
      e2.get f = (.map (mergeMaps old inc), true) ∧
      (∀ q, alookup (mergeMaps old inc) q =
        (match alookup inc q with
         | some v => some v
         | none => alookup old q)) := by
  cases hres : e.resource with
  | none => simp only [Entry.get, hres] at hget; simp at hget
  | some m =>
    cases hk : f.keys with
    | nil =>
      simp only [Entry.get, hres, hk] at hget
      have hm : m = old := by simpa [getKeys] using hget
      subst hm
      refine ⟨{ e with resource := some (mergeMaps m inc) }, ?_, ?_,
        fun q => mergeMaps_lookup inc m q hnd⟩
      · simp [Entry.set, hres, hk]
      · simp [Entry.get, hk, getKeys]
    | cons key rest =>
      simp only [Entry.get, hres, hk] at hget
      obtain ⟨m2, hset, hget2⟩ := setKeys_merge rest key m old inc hget
      refine ⟨{ e with resource := some m2 }, ?_, ?_,
        fun q => mergeMaps_lookup inc old q hnd⟩
      · simp [Entry.set, hres, hk, hset]
      · simp [Entry.get, hk, hget2]

/-- Witness for claim C1 at the MergedNestedValue test case: merging the
mapping with key merged_key into the existing nested mapping at map_key. -/
theorem set_merges_into_existing_mapping_witness :
    ∃ e2, Entry.set ⟨0, .null, none, some testMap⟩ ⟨["map_key"]⟩
        (.map [("merged_key", .str "merged_value")]) = .ok e2 ∧
      e2.get ⟨["map_key"]⟩ =
        (.map (mergeMaps nestedMap [("merged_key", .str "merged_value")]), true) ∧
      (∀ q, alookup (mergeMaps nestedMap [("merged_key", .str "merged_value")]) q =
        (match alookup [("merged_key", Value.str "merged_value")] q with
         | some v => some v
         | none => alookup nestedMap q)) :=
  set_merges_into_existing_mapping ⟨0, .null, none, some testMap⟩ ⟨["map_key"]⟩
    nestedMap [("merged_key", .str "merged_value")] rfl (by decide)

/-- Claim C2: Set on a root field (empty key sequence) over an
already-populated resource sub-tree with a non-mapping incoming value returns
an error; the model returns no updated entry in that case, so the sub-tree is
left unchanged. -/
theorem set_root_nonmapping_rejected (e : Entry) (m : VMap) (v : Value)
    (hres : e.resource = some m) (hne : m ≠ []) (hv : v.isMap = false) :
    e.set ⟨[]⟩ v = .error errRootNonMap := by
  have hemp : m.isEmpty = false := by
    cases m with
    | nil => exact absurd rfl hne
    | cons a b => rfl
  cases v <;> simp_all [Entry.set, Value.isMap]

/-- Witness for claim C2 at the OverwriteRoot test case: setting the root
field to the scalar val over the populated test mapping errors. -/
theorem set_root_nonmapping_rejected_witness :
    Entry.set ⟨0, .null, none, some testMap⟩ ⟨[]⟩ (.str "val") = .error errRootNonMap :=
  set_root_nonmapping_rejected ⟨0, .null, none, some testMap⟩ testMap (.str "val")
    rfl (by simp [testMap]) rfl

/-- Claim C3: for every Set with at least one key segment, the write succeeds
exactly when no existing non-mapping value sits at an intermediate segment
(missing intermediates are auto-created as empty mapping containers, while a
blocking non-mapping value makes Set return an error), and on a completely
uninitialized resource sub-tree the write always succeeds and the value can be
read back at the path. -/
theorem set_autovivifies_and_blocks :
    (∀ (m : VMap) (key : String) (rest : List String) (v : Value),
      setOk (setKeys m key rest v) = clearPath m key rest) ∧
    (∀ (key : String) (rest : List String) (v : Value),
      (Entry.set ⟨0, .null, none, none⟩ ⟨key :: rest⟩ v).map
        (fun e2 => e2.get ⟨key :: rest⟩) = .ok (v, true)) := by
  refine ⟨fun m key rest v => setKeys_ok rest m key v, fun key rest v => ?_⟩
  obtain ⟨m2, hset, hget⟩ := setKeys_fresh rest key v
  simp [Entry.set, hset, Entry.get, hget, Except.map]

/-- Claim C4: unmarshalling a field from YAML and from JSON agrees on every
input, and the three malformed-input classes produce exactly the error texts
the collaborators match on: a non-string input, a string lacking the root
keyword, and an unclosed left bracket. -/
theorem unmarshal_identical_error_texts :
    (∀ n, ResourceField.unmarshalYAML n = ResourceField.unmarshalJSON n) ∧
    ResourceField.unmarshalYAML .nonstr = .error "the field is not a string" ∧
    ResourceField.unmarshalJSON .nonstr = .error "the field is not a string" ∧
    ResourceField.unmarshalYAML (.str "test") =
      .error ("must start with " ++ sq ++ "resource" ++ sq) ∧
    ResourceField.unmarshalJSON (.str "test") =
      .error ("must start with " ++ sq ++ "resource" ++ sq) ∧
    ResourceField.unmarshalYAML (.str ("test[" ++ sq ++ "foo" ++ sq)) =
      .error "found unclosed left bracket" ∧
    ResourceField.unmarshalJSON (.str ("test[" ++ sq ++ "foo" ++ sq)) =
      .error "found unclosed left bracket" := by
  refine ⟨fun n => ?_, rfl, rfl, rfl, rfl, rfl, rfl⟩
  cases n <;> rfl

/-- Claim C5: bracket segments accept raw text containing the delimiter
characters literally (any quote-free raw text parses as a single key), and dot
and bracket segments mix freely: both bracketed-bracketed and bracketed-dot
forms of the test.foo and bar path yield the key sequence test.foo, bar. -/
theorem bracket_keys_allow_delimiters :
    (∀ raw : List Char, squote ∉ raw →
      fromJSONDot ("resource[" ++ sq ++ String.mk raw ++ sq ++ "]") =
        .ok ["resource", String.mk raw]) ∧
    ResourceField.unmarshalYAML
      (.str ("resource[" ++ sq ++ "test.foo" ++ sq ++ "][" ++ sq ++ "bar" ++ sq ++ "]")) =
      .ok ⟨["test.foo", "bar"]⟩ ∧
    ResourceField.unmarshalJSON
      (.str ("resource[" ++ sq ++ "test.foo" ++ sq ++ "][" ++ sq ++ "bar" ++ sq ++ "]")) =
      .ok ⟨["test.foo", "bar"]⟩ ∧
    ResourceField.unmarshalYAML
      (.str ("resource[" ++ sq ++ "test.foo" ++ sq ++ "].bar")) =
      .ok ⟨["test.foo", "bar"]⟩ ∧
    ResourceField.unmarshalJSON
      (.str ("resource[" ++ sq ++ "test.foo" ++ sq ++ "].bar")) =
      .ok ⟨["test.foo", "bar"]⟩ :=
  ⟨parse_bracket_general, rfl, rfl, rfl, rfl⟩

/-- Witness for claim C5: a bracketed key containing a dot, a left bracket and
a right bracket literally parses as that single key. -/
theorem bracket_keys_allow_delimiters_witness :
    fromJSONDot ("resource[" ++ sq ++ String.mk ['a', '.', '[', ']'] ++ sq ++ "]") =
      .ok ["resource", String.mk ['a', '.', '[', ']']] :=
  bracket_keys_allow_delimiters.1 ['a', '.', '[', ']'] (by decide)

/-- Claim C6: Delete on a root field (empty key sequence) against a non-nil
resource sub-tree returns the entire current contents with found true (also
for an empty mapping) and resets the sub-tree to its uninitialized
representation, touching nothing else in the record. -/
theorem delete_root_returns_subtree (e : Entry) (m : VMap)
    (hres : e.resource = some m) :
    e.delete ⟨[]⟩ = (.map m, true, { e with resource := none }) := by
  simp [Entry.delete, hres]

/-- Witness for claim C6 at the EmptyResourceAndField test case: deleting the
root field of an empty (but initialized) resource returns the empty mapping
with found true and nils the resource out. -/
theorem delete_root_returns_subtree_witness :
    Entry.delete ⟨0, .null, none, some []⟩ ⟨[]⟩ =
      (.map [], true, ⟨0, .null, none, none⟩) :=
  delete_root_returns_subtree ⟨0, .null, none, some []⟩ [] rfl

/-- Claim C7: the Get and Delete traversals succeed exactly when the full path
exists (a non-mapping value at a non-final segment or an absent key at any
segment reports found false, never a crash, since the operations are total
functions), and a Delete that reports found false leaves the record
unchanged. -/
theorem get_delete_blocked_or_missing_not_found :
    (∀ (v : Value) (ks : List String), (getKeys v ks).2 = pathExists v ks) ∧
    (∀ (m : VMap) (key : String) (rest : List String),
      (deleteKeys m key rest).isSome = pathExists (.map m) (key :: rest)) ∧
    (∀ (e : Entry) (f : ResourceField) (m : VMap) (key : String) (rest : List String),
      e.resource = some m → f.keys = key :: rest →
      (e.get f).2 = pathExists (.map m) (key :: rest) ∧
      (e.delete f).2.1 = pathExists (.map m) (key :: rest)) ∧
    (∀ (e : Entry) (f : ResourceField),
      (e.delete f).2.1 = false → (e.delete f).2.2 = e) := by
  refine ⟨fun v ks => getKeys_found ks v,
    fun m key rest => deleteKeys_isSome rest m key, ?_, ?_⟩
  · intro e f m key rest hres hk
    constructor
    · simp [Entry.get, hres, hk, getKeys_found]
    · have hs := deleteKeys_isSome rest m key
      rcases h2 : deleteKeys m key rest with _ | vi
      · rw [h2] at hs
        simp only [Entry.delete, hres, hk, h2]
        simpa using hs
      · obtain ⟨v, m2⟩ := vi
        rw [h2] at hs
        simp only [Entry.delete, hres, hk, h2]
        simpa using hs
  · intro e f
    cases hres : e.resource with
    | none => simp [Entry.delete, hres]
    | some m =>
      cases hk : f.keys with
      | nil => simp [Entry.delete, hres, hk]
      | cons key rest =>
        rcases h2 : deleteKeys m key rest with _ | vi
        · simp [Entry.delete, hres, hk, h2]
        · obtain ⟨v, m2⟩ := vi
          simp [Entry.delete, hres, hk, h2]

/-- Witness for claim C7 at the InvalidNestedKey test case: the delete of
simple_key.missing over the test mapping is blocked by a scalar, reports found
false by the theorem, and leaves the record unchanged. -/
theorem get_delete_blocked_or_missing_not_found_witness :
    (Entry.delete ⟨0, .null, none, some testMap⟩ ⟨["simple_key", "missing"]⟩).2.2 =
      ⟨0, .null, none, some testMap⟩ :=
  get_delete_blocked_or_missing_not_found.2.2.2
    ⟨0, .null, none, some testMap⟩ ⟨["simple_key", "missing"]⟩ rfl

/-- Claim C8: Merge surfaces no error (it is a total function into records):
when the target location does not yet exist the incoming mapping is installed
there, auto-vivifying intermediates, and existing keys outside the target are
preserved. -/
theorem merge_installs_absent_target (e : Entry) (keys : List String) (inc : VMap)
    (habs : pathExists (.map (e.resource.getD [])) keys = false)
    (hnd : (inc.map Prod.fst).Nodup) :
    ((⟨keys⟩ : ResourceField).merge e inc).get ⟨keys⟩ =
      (.map (mergeMaps [] inc), true) ∧
    (∀ q, alookup (mergeMaps [] inc) q = alookup inc q) ∧
    (∀ key rest q, keys = key :: rest → q ≠ key →
      alookup (((⟨keys⟩ : ResourceField).merge e inc).resource.getD []) q =
        alookup (e.resource.getD []) q) := by
  refine ⟨?_, ?_, ?_⟩
  · simp only [ResourceField.merge, Entry.get]
    exact mergeKeys_install keys _ inc habs
  · intro q
    rw [mergeMaps_lookup inc [] q hnd]
    cases alookup inc q <;> simp [alookup]
  · intro key rest q hk hq
    subst hk
    simp only [ResourceField.merge, Option.getD]
    exact mergeKeys_frame _ key rest inc q hq

/-- Witness for claim C8 at the TestResourceFieldMerge case: merging the
mapping with key new at the absent embedded key of a record whose resource
holds the key old. -/
theorem merge_installs_absent_target_witness :
    ((⟨["embedded"]⟩ : ResourceField).merge
        ⟨0, .null, none, some [("old", .str "values")]⟩
        [("new", .str "values")]).get ⟨["embedded"]⟩ =
      (.map (mergeMaps [] [("new", .str "values")]), true) ∧
    (∀ q, alookup (mergeMaps [] [("new", Value.str "values")]) q =
      alookup [("new", Value.str "values")] q) ∧
    (∀ key rest q, (["embedded"] : List String) = key :: rest → q ≠ key →
      alookup (((⟨["embedded"]⟩ : ResourceField).merge
          ⟨0, .null, none, some [("old", .str "values")]⟩
          [("new", .str "values")]).resource.getD []) q =
        alookup ((some [("old", Value.str "values")]).getD []) q) :=
  merge_installs_absent_target ⟨0, .null, none, some [("old", .str "values")]⟩
    ["embedded"] [("new", .str "values")] rfl (by decide)

/-- Claim C9 counterexample: on a completely uninitialized (nil) resource
sub-tree, Get and Delete with a non-empty key sequence return the typed zero
value, the empty string, as their payload — not a neutral no-value marker
(the null value) as the claim states. -/
theorem get_delete_uninitialized_payload_is_empty_string :
    Entry.get ⟨0, .null, none, none⟩ ⟨["nonexistent"]⟩ = (.str "", false) ∧
    Entry.delete ⟨0, .null, none, none⟩ ⟨["nonexistent"]⟩ =
      (.str "", false, ⟨0, .null, none, none⟩) ∧
    Value.str "" ≠ Value.null :=
  ⟨rfl, rfl, fun h => Value.noConfusion h⟩

/-- Claim C9 as amended: for every field with a non-empty key sequence, Get
and Delete against a completely uninitialized (nil) sub-tree report found
false with the typed zero value (the empty string) as payload, Delete leaving
the record unchanged. -/
theorem get_delete_uninitialized_zero_value (e : Entry) (f : ResourceField)
    (hres : e.resource = none) (_hk : f.keys ≠ []) :
    e.get f = (.str "", false) ∧ e.delete f = (.str "", false, e) := by
  constructor <;> simp [Entry.get, Entry.delete, hres]

/-- Witness for the amended claim C9 at the Uninitialized test cases. -/
theorem get_delete_uninitialized_zero_value_witness :
    Entry.get ⟨1, .null, none, none⟩ ⟨["a", "b"]⟩ = (.str "", false) ∧
    Entry.delete ⟨1, .null, none, none⟩ ⟨["a", "b"]⟩ =
      (.str "", false, ⟨1, .null, none, none⟩) :=
  get_delete_uninitialized_zero_value ⟨1, .null, none, none⟩ ⟨["a", "b"]⟩ rfl (by simp)

/-- Claim C10: a successful Delete with two or more key segments removes only
the entry at the final key: the top level keeps every key other than the first
segment, the parent container survives as the old parent with the final key
erased (an empty mapping when that was its only member), the other keys of the
parent are unchanged, and the final key is gone. -/
theorem delete_nested_removes_only_final (m p : VMap) (v : Value) (m2 : VMap)
    (key next last : String) (rest : List String)
    (hdel : deleteKeys m key (next :: rest) = some (v, m2))
    (hpar : getKeys (.map m) ((key :: next :: rest).dropLast) = (.map p, true))
    (hlast : (key :: next :: rest).getLast? = some last)
    (hnd : (p.map Prod.fst).Nodup) :
    (∀ q, q ≠ key → alookup m2 q = alookup m q) ∧
    getKeys (.map m2) ((key :: next :: rest).dropLast) = (.map (aerase p last), true) ∧
    (∀ q, q ≠ last → alookup (aerase p last) q = alookup p q) ∧
    alookup (aerase p last) last = none :=
  ⟨fun q hq => deleteKeys_frame m key (next :: rest) v m2 hdel q hq,
   deleteKeys_parent (next :: rest) key m v m2 p last hdel hpar hlast,
   fun q hq => alookup_aerase_ne p last q hq,
   alookup_aerase_self p last hnd⟩

/-- Witness for claim C10 at the NestedKey test case: deleting
map_key.nested_key from the test mapping removes only the nested entry,
leaving map_key as an empty mapping and simple_key untouched. -/
theorem delete_nested_removes_only_final_witness :
    (∀ q, q ≠ "map_key" →
      alookup [("simple_key", Value.str "simple_value"), ("map_key", Value.map [])] q =
        alookup testMap q) ∧
    getKeys (.map [("simple_key", Value.str "simple_value"), ("map_key", Value.map [])])
        ((["map_key", "nested_key"] : List String).dropLast) =
      (.map (aerase nestedMap "nested_key"), true) ∧
    (∀ q, q ≠ "nested_key" → alookup (aerase nestedMap "nested_key") q = alookup nestedMap q) ∧
    alookup (aerase nestedMap "nested_key") "nested_key" = none :=
  delete_nested_removes_only_final testMap nestedMap (.str "nested_value")
    [("simple_key", .str "simple_value"), ("map_key", .map [])]
    "map_key" "nested_key" "nested_key" [] rfl rfl rfl (by decide)

end OTelEntry
